import Mathlib

/-!
Shallow embedding of the `primordial` crate's typed address/offset algebra
(src/address.rs, src/offset.rs, src/page.rs, src/pages.rs).

Machine integers of an unsigned Rust type `T` of bit width `w` are modelled
as natural numbers below `2 ^ w`; release-mode wrapping arithmetic is made
explicit with `% 2 ^ w`.  A phantom tag type `U` is characterised by the two
numbers the code ever extracts from it: `size_of::<U>()` and `align_of::<U>()`,
passed as explicit `Nat` parameters.  Operations that panic in Rust
(division by zero, the alignment check of `Address::new`, the `try_cast`
error) return `Option`/are `none` on the panicking input.
-/

/-- Wrapping addition of `w`-bit unsigned integers (release-mode Rust `+`). -/
def wadd (w a b : Nat) : Nat := (a + b) % 2 ^ w

/-- Wrapping subtraction of `w`-bit unsigned integers (release-mode Rust `-`):
two's-complement `a - b` modulo `2 ^ w`. -/
def wsub (w a b : Nat) : Nat := (a + (2 ^ w - b % 2 ^ w)) % 2 ^ w

/-- Wrapping multiplication of `w`-bit unsigned integers (release-mode Rust `*`). -/
def wmul (w a b : Nat) : Nat := (a * b) % 2 ^ w

/-- `Offset::<T, U>::bytes` (src/offset.rs lines 96-100): `self.0 * size_of::<U>()`
in `T`'s arithmetic.  `w` is the bit width of `T`, `s` is `size_of::<U>()`
(losslessly converted into `T` by the `Offset<usize, ()>: Into<Offset<T, ()>>`
bound, so `s < 2 ^ w` in every instantiation the code compiles),
`items` is the stored item count `self.0`. -/
def Offset.bytes (w s items : Nat) : Nat := wmul w items s

/-- `Address::<usize, U>::new` (src/address.rs lines 104-110): panics (`none`)
when `value % align_of::<U>() != 0`, otherwise stores the value unchanged.
`alignU` is `align_of::<U>()`. -/
def Address.new (alignU value : Nat) : Option Nat :=
  if value % alignU ≠ 0 then none else some value

/-- `Address::<T, U>::try_cast::<V>` (src/address.rs lines 171-179): returns
`Err(AlignmentError)` (`none`) when the raw value is not a multiple of
`align_of::<V>()`, otherwise the same raw value retagged.  The round trip
through `Address<usize, U>` demanded by the trait bounds is lossless by
construction, hence the identity on the numeric value. -/
def Address.try_cast (alignV value : Nat) : Option Nat :=
  if value % alignV ≠ 0 then none else some value

/-- `Address::<T, U>::raise::<V>` (src/address.rs lines 193-196):
`(self.0 + align - T::ONE) / align * align` in `T`'s wrapping arithmetic,
with `a = align_of::<V>()` (losslessly converted into `T`). -/
def Address.raise (w a v : Nat) : Nat := wmul w (wsub w (wadd w v a) 1 / a) a

/-- `Address::<T, U>::lower::<V>` (src/address.rs lines 200-203):
`self.0 / align * align`, with `a = align_of::<V>()`. -/
def Address.lower (w a v : Nat) : Nat := wmul w (v / a) a

/-- `impl Add<Offset<T, U>> for Address<T, U>` (src/address.rs lines 298-310):
`self.0 + rhs.bytes()` in `T`'s wrapping arithmetic. -/
def Address.addOff (w s a items : Nat) : Nat := wadd w a (Offset.bytes w s items)

/-- `impl Sub<Offset<T, U>> for Address<T, U>` (src/address.rs lines 341-353):
`self.0 - rhs.bytes()` in `T`'s wrapping arithmetic. -/
def Address.subOff (w s a items : Nat) : Nat := wsub w a (Offset.bytes w s items)

/-- `impl Sub<Address<T, U>> for Address<T, U>` (src/address.rs lines 324-339):
`Offset::from_items((self.0 - rhs.0) / Offset::<T, U>::from_items(T::ONE).bytes())`.
Rust's integer division panics when the divisor is zero, modelled as `none`. -/
def Address.subAddr (w s a b : Nat) : Option Nat :=
  let oneBytes := Offset.bytes w s 1
  if oneBytes = 0 then none else some (wsub w a b / oneBytes)

/-- `value.0 as _`: a Rust integer cast into the `tw`-bit unsigned target. -/
def castTo (tw v : Nat) : Nat := v % 2 ^ tw

/-- The (source width, target width) pairs of the `From` impls between
`Address` raw widths that are compiled on a `target_pointer_width = "64"`
build (src/address.rs lines 266-296): `u64 -> usize`, `usize -> u64`,
`u32 -> usize`; the `usize -> u32` impl (lines 290-296) is compiled only on
32-bit targets and is absent. -/
def addressFromImpls64 : List (Nat × Nat) := [(64, 64), (64, 64), (32, 64)]

/-- The (source width, target width) pairs of the `From` impls between
`Offset` raw widths compiled on a 64-bit build (src/offset.rs lines 128-158):
`u64 -> usize`, `usize -> u64`, `u32 -> usize`; `usize -> u32` is absent. -/
def offsetFromImpls64 : List (Nat × Nat) := [(64, 64), (64, 64), (32, 64)]

/-- `Page::SIZE` (src/page.rs line 71). -/
def PAGE_SIZE : Nat := 4096

/-- `Pages::copy_into` (src/pages.rs lines 37-58): truncates `data` to
`min(size, data.len())` bytes, computes the page count
`(offset + size + Page::SIZE - 1) / Page::SIZE` in wrapping `usize`
arithmetic (64-bit build), and lays the `count * Page::SIZE`-byte buffer out
as a zero prefix of `offset` bytes, the truncated data, and a zero suffix
filling the rest.  The two `split_at_mut` calls panic (`none`) when `offset`
or the truncated data do not fit inside the buffer, which happens when the
count computation has wrapped. -/
def Pages.copy_into (data : List Nat) (size offset : Nat) : Option (List Nat) :=
  let d := data.take (min size data.length)
  let count := wsub 64 (wadd 64 (wadd 64 offset size) PAGE_SIZE) 1 / PAGE_SIZE
  let total := count * PAGE_SIZE
  if offset ≤ total ∧ d.length ≤ total - offset then
    some (List.replicate offset 0 ++ d ++ List.replicate (total - (offset + d.length)) 0)
  else none

/-- `Pages::copy` (src/pages.rs lines 27-29). -/
def Pages.copy (data : List Nat) : Option (List Nat) :=
  Pages.copy_into data data.length 0

/-- C3: `Address::<usize, U>::new(v)` panics exactly when `v` is not a multiple
of `align_of::<U>()`, and otherwise returns the raw value `v` unchanged. -/
theorem Address.new_spec (alignU v : Nat) :
    (Address.new alignU v = none ↔ v % alignU ≠ 0) ∧
    (v % alignU = 0 → Address.new alignU v = some v) := by
  constructor
  · unfold Address.new
    by_cases h : v % alignU = 0 <;> simp [h]
  · intro h
    simp [Address.new, h]

theorem Address.new_spec_witness :
    (Address.new 8 16 = none ↔ 16 % 8 ≠ 0) ∧ Address.new 8 16 = some 16 :=
  ⟨(Address.new_spec 8 16).1, (Address.new_spec 8 16).2 (by decide)⟩

/-- C5: `try_cast::<V>()` returns an alignment error exactly when the raw value
is not a multiple of `align_of::<V>()`, and otherwise succeeds with the raw
value unchanged. -/
theorem Address.try_cast_spec (alignV v : Nat) :
    (Address.try_cast alignV v = none ↔ v % alignV ≠ 0) ∧
    (v % alignV = 0 → Address.try_cast alignV v = some v) := by
  constructor
  · unfold Address.try_cast
    by_cases h : v % alignV = 0 <;> simp [h]
  · intro h
    simp [Address.try_cast, h]

theorem Address.try_cast_spec_witness :
    (Address.try_cast 4 6 = none ↔ 6 % 4 ≠ 0) ∧ Address.try_cast 4 8 = some 8 :=
  ⟨(Address.try_cast_spec 4 6).1, (Address.try_cast_spec 4 8).2 (by decide)⟩

/-- C7: `Offset::bytes` is `items * size_of::<U>()` in `T`'s arithmetic,
wrapping modulo `2 ^ w`, with no separate overflow check; when the product
fits in `T` it is returned exactly. -/
theorem Offset.bytes_spec (w s items : Nat) :
    Offset.bytes w s items = items * s % 2 ^ w ∧
    (items * s < 2 ^ w → Offset.bytes w s items = items * s) := by
  refine ⟨rfl, fun h => ?_⟩
  simp [Offset.bytes, wmul, Nat.mod_eq_of_lt h]

theorem Offset.bytes_spec_witness :
    Offset.bytes 8 4 3 = 3 * 4 % 2 ^ 8 ∧ Offset.bytes 8 4 3 = 3 * 4 :=
  ⟨(Offset.bytes_spec 8 4 3).1, (Offset.bytes_spec 8 4 3).2 (by decide)⟩

/-- C8: `Pages::copy(data)` returns exactly the result of
`Pages::copy_into(data, data.len(), 0)`. -/
theorem Pages.copy_eq_copy_into (data : List Nat) :
    Pages.copy data = Pages.copy_into data data.length 0 := rfl

/-- C9: for a zero-sized tag (`size_of::<U>() = 0`) address subtraction divides
by `Offset::from_items(1).bytes() = 0`, which panics: the operation is not
total and never produces an offset. -/
theorem Address.subAddr_zst_panics (w a b : Nat) :
    Address.subAddr w 0 a b = none := by
  simp [Address.subAddr, Offset.bytes, wmul]

/-- C10: for a zero-sized tag (`size_of::<U>() = 0`), adding or subtracting any
offset leaves the raw address unchanged, since the offset's byte value is 0. -/
theorem Address.zst_offset_identity (w s a items : Nat) (hs : s = 0)
    (ha : a < 2 ^ w) :
    Address.addOff w s a items = a ∧ Address.subOff w s a items = a := by
  subst hs
  constructor
  · simp [Address.addOff, Offset.bytes, wmul, wadd, Nat.mod_eq_of_lt ha]
  · simp [Address.subOff, Offset.bytes, wmul, wsub, Nat.mod_eq_of_lt ha,
      Nat.add_sub_cancel, Nat.add_mod_right]

theorem Address.zst_offset_identity_witness :
    Address.addOff 8 0 5 100 = 5 ∧ Address.subOff 8 0 5 100 = 5 :=
  Address.zst_offset_identity 8 0 5 100 rfl (by decide)

lemma wsub_wadd_one (w a v : Nat) (ha : 0 < a) (hno : v + a ≤ 2 ^ w) :
    wsub w (wadd w v a) 1 = v + a - 1 := by
  have hN : 0 < 2 ^ w := Nat.two_pow_pos w
  rcases Nat.lt_or_ge (v + a) (2 ^ w) with h | h
  · have h1 : 1 < 2 ^ w := by omega
    unfold wsub wadd
    rw [Nat.mod_eq_of_lt h, Nat.mod_eq_of_lt h1]
    have h2 : v + a + (2 ^ w - 1) = v + a - 1 + 2 ^ w := by omega
    rw [h2, Nat.add_mod_right, Nat.mod_eq_of_lt (by omega)]
  · have heq : v + a = 2 ^ w := le_antisymm hno h
    rcases Nat.lt_or_ge 1 (2 ^ w) with h1 | h1
    · unfold wsub wadd
      rw [heq, Nat.mod_self, Nat.mod_eq_of_lt h1, Nat.zero_add,
        Nat.mod_eq_of_lt (by omega)]
    · have hone : 2 ^ w = 1 := le_antisymm h1 hN
      unfold wsub wadd
      simp only [hone, Nat.mod_one]
      omega

lemma le_ceil_div_mul (a v : Nat) (ha : 0 < a) : v ≤ (v + a - 1) / a * a := by
  have hdm := Nat.div_add_mod (v + a - 1) a
  have hmod : (v + a - 1) % a < a := Nat.mod_lt _ ha
  rw [Nat.mul_comm]
  omega

lemma ceil_div_mul_min (a v r : Nat) (ha : 0 < a) (hdvd : a ∣ r) (hvr : v ≤ r) :
    (v + a - 1) / a * a ≤ r := by
  obtain ⟨k, rfl⟩ := hdvd
  have h0 : (a - 1) / a = 0 := Nat.div_eq_of_lt (by omega)
  have h1 : v + a - 1 ≤ a * k + (a - 1) := by omega
  have h2 : (v + a - 1) / a ≤ (a * k + (a - 1)) / a := Nat.div_le_div_right h1
  rw [Nat.mul_add_div ha, h0, Nat.add_zero] at h2
  calc (v + a - 1) / a * a ≤ k * a := Nat.mul_le_mul_right a h2
    _ = a * k := Nat.mul_comm k a

/-- C1 (amended): with `a = align_of::<V>() > 0` and a raw value `v` in range,
`lower` returns the largest multiple of `a` that is `<= v`; and provided
`v + a - 1` does not overflow `T` (`v + a <= 2 ^ w`), `raise` equals
`((v + a - 1) / a) * a`, the smallest multiple of `a` that is `>= v`.
Without that proviso `raise` wraps, see the counterexample. -/
theorem Address.raise_lower_spec (w a v : Nat) (ha : 0 < a) (hv : v < 2 ^ w) :
    (v + a ≤ 2 ^ w →
      Address.raise w a v = (v + a - 1) / a * a ∧
      a ∣ Address.raise w a v ∧ v ≤ Address.raise w a v ∧
      ∀ r, a ∣ r → v ≤ r → Address.raise w a v ≤ r) ∧
    (a ∣ Address.lower w a v ∧ Address.lower w a v ≤ v ∧
      ∀ r, a ∣ r → r ≤ v → r ≤ Address.lower w a v) := by
  constructor
  · intro hno
    have hform : Address.raise w a v = (v + a - 1) / a * a := by
      unfold Address.raise
      rw [wsub_wadd_one w a v ha hno]
      unfold wmul
      exact Nat.mod_eq_of_lt (lt_of_le_of_lt
        (le_trans (Nat.div_mul_le_self _ _) (le_refl _)) (by omega))
    refine ⟨hform, ?_, ?_, ?_⟩
    · rw [hform]; exact dvd_mul_left a _
    · rw [hform]; exact le_ceil_div_mul a v ha
    · intro r hr hvr
      rw [hform]; exact ceil_div_mul_min a v r ha hr hvr
  · have hform : Address.lower w a v = v / a * a := by
      unfold Address.lower wmul
      exact Nat.mod_eq_of_lt (lt_of_le_of_lt (Nat.div_mul_le_self v a) hv)
    refine ⟨?_, ?_, ?_⟩
    · rw [hform]; exact dvd_mul_left a _
    · rw [hform]; exact Nat.div_mul_le_self v a
    · intro r hr hrv
      obtain ⟨k, rfl⟩ := hr
      rw [hform, Nat.mul_comm a k]
      exact Nat.mul_le_mul_right a
        ((Nat.le_div_iff_mul_le ha).2 (by rw [Nat.mul_comm]; exact hrv))

theorem Address.raise_lower_spec_witness :
    Address.raise 7 3 10 = (10 + 3 - 1) / 3 * 3 ∧ 10 ≤ Address.raise 7 3 10 ∧
    Address.lower 7 3 10 ≤ 10 :=
  ⟨((Address.raise_lower_spec 7 3 10 (by decide) (by decide)).1 (by decide)).1,
   ((Address.raise_lower_spec 7 3 10 (by decide) (by decide)).1 (by decide)).2.2.1,
   (Address.raise_lower_spec 7 3 10 (by decide) (by decide)).2.2.1⟩

/-- C1 counterexample: raising the `u64` value `2^64 - 1` to alignment 2
(e.g. `raise::<u16>()`) wraps to 0, which is smaller than the input, so
`raise` does not return the smallest aligned value `>= v` for every `v`. -/
theorem Address.raise_overflow_cex :
    Address.raise 64 2 (2 ^ 64 - 1) < 2 ^ 64 - 1 := by decide

/-- C4 (amended): for same-typed addresses `a, b` with `b <= a`, provided the
tag's size `s = size_of::<U>()` is positive and divides the raw difference,
the subtraction `a - b` yields `(a - b) / s` items and adding that offset back
to `b` recovers `a`.  When `s` does not divide the difference the item-count
division truncates and the identity fails, see the counterexample. -/
theorem Address.sub_add_inverse (w s a b : Nat) (hs : 0 < s) (hsw : s < 2 ^ w)
    (ha : a < 2 ^ w) (hba : b ≤ a) (hdvd : s ∣ a - b) :
    Address.subAddr w s a b = some ((a - b) / s) ∧
    Address.addOff w s b ((a - b) / s) = a := by
  have hone : Offset.bytes w s 1 = s := by
    simp [Offset.bytes, wmul, Nat.mod_eq_of_lt hsw]
  have hws : wsub w a b = a - b := by
    unfold wsub
    rw [Nat.mod_eq_of_lt (lt_of_le_of_lt hba ha)]
    have h2 : a + (2 ^ w - b) = a - b + 2 ^ w := by
      have := Nat.two_pow_pos w
      omega
    rw [h2, Nat.add_mod_right, Nat.mod_eq_of_lt (by omega)]
  constructor
  · unfold Address.subAddr
    rw [hone, hws]
    simp [Nat.pos_iff_ne_zero.mp hs]
  · unfold Address.addOff Offset.bytes wmul wadd
    have hmod1 : (a - b) / s * s = a - b := Nat.div_mul_cancel hdvd
    have hab : a - b < 2 ^ w := by omega
    rw [hmod1, Nat.mod_eq_of_lt hab]
    have h3 : b + (a - b) = a := by omega
    rw [h3, Nat.mod_eq_of_lt ha]

theorem Address.sub_add_inverse_witness :
    Address.subAddr 64 8 16 8 = some ((16 - 8) / 8) ∧
    Address.addOff 64 8 8 ((16 - 8) / 8) = 16 :=
  Address.sub_add_inverse 64 8 16 8 (by decide) (by decide) (by decide)
    (by decide) (by decide)

/-- C4 counterexample: take a tag `U` with `size_of::<U>() = 8` and
`align_of::<U>() = 4` (for instance `(u32, u32)`), and the properly aligned
`u64` addresses `a = 4`, `b = 0`.  Then `a - b` is an offset of `4 / 8 = 0`
items and `b + (a - b) = 0 ≠ 4 = a`: the inverse law fails as stated. -/
theorem Address.sub_add_inverse_cex :
    Address.subAddr 64 8 4 0 = some 0 ∧ Address.addOff 64 8 0 0 ≠ 4 := by
  constructor
  · decide
  · decide

/-- C6: the width-conversion `From` impls compiled on a 64-bit build, for both
`Address` and `Offset`, are bit-identical casts that preserve the numeric
value of any input of the source width; and the `usize -> u32` (width 64 to
width 32) conversion is not offered for either type. -/
theorem widthConv64_spec :
    (∀ p ∈ addressFromImpls64, ∀ v, v < 2 ^ p.1 → castTo p.2 v = v) ∧
    (∀ p ∈ offsetFromImpls64, ∀ v, v < 2 ^ p.1 → castTo p.2 v = v) ∧
    (64, 32) ∉ addressFromImpls64 ∧ (64, 32) ∉ offsetFromImpls64 := by
  refine ⟨?_, ?_, by decide, by decide⟩ <;>
  · intro p hp v hv
    fin_cases hp <;>
    · simp only [castTo]
      exact Nat.mod_eq_of_lt (lt_of_lt_of_le hv (Nat.pow_le_pow_right
        (by norm_num) (by norm_num)))

theorem widthConv64_spec_witness :
    castTo 64 7 = 7 ∧ castTo 64 (2 ^ 64 - 1) = 2 ^ 64 - 1 :=
  ⟨widthConv64_spec.1 (32, 64) (by decide) 7 (by decide),
   widthConv64_spec.2.1 (64, 64) (by decide) (2 ^ 64 - 1) (by decide)⟩

lemma copy_into_take_length (data : List Nat) (size : Nat) :
    (data.take (min size data.length)).length = min size data.length := by
  simp only [List.length_take]
  omega

lemma copy_into_bound (data : List Nat) (size offset : Nat) :
    offset + min size data.length ≤
      (offset + size + PAGE_SIZE - 1) / PAGE_SIZE * PAGE_SIZE := by
  simp only [PAGE_SIZE]
  omega

lemma copy_into_eq_of_no_overflow (data : List Nat) (size offset : Nat)
    (hno : offset + size + PAGE_SIZE ≤ 2 ^ 64) :
    Pages.copy_into data size offset =
      some (List.replicate offset 0 ++ data.take (min size data.length) ++
        List.replicate ((offset + size + PAGE_SIZE - 1) / PAGE_SIZE * PAGE_SIZE -
          (offset + (data.take (min size data.length)).length)) 0) := by
  have h1 : wadd 64 offset size = offset + size := by
    unfold wadd
    refine Nat.mod_eq_of_lt ?_
    simp only [PAGE_SIZE] at hno
    omega
  have h2 : wsub 64 (wadd 64 (offset + size) PAGE_SIZE) 1 =
      offset + size + PAGE_SIZE - 1 :=
    wsub_wadd_one 64 PAGE_SIZE (offset + size) (by norm_num [PAGE_SIZE]) hno
  have hb := copy_into_bound data size offset
  have hk := copy_into_take_length data size
  simp only [Pages.copy_into, h1, h2, hk]
  rw [if_pos ⟨by omega, by omega⟩]

/-- C2 (amended): provided the page-count computation `offset + size + Page::SIZE - 1`
does not overflow `usize` (`offset + size + PAGE_SIZE ≤ 2 ^ 64`),
`Pages::copy_into(data, size, offset)` returns a buffer of
`ceil((offset + size) / PAGE_SIZE) * PAGE_SIZE` bytes that is zero on
`[0, offset)`, carries the first `min(size, data.len())` bytes of `data`
starting at `offset`, and is zero from there to the end.  When the
computation overflows, the wrapped page count yields a smaller buffer (or a
slice-split panic), see the counterexample. -/
theorem Pages.copy_into_spec (data : List Nat) (size offset : Nat)
    (hno : offset + size + PAGE_SIZE ≤ 2 ^ 64) :
    (Pages.copy_into data size offset).isSome = true ∧
    ((Pages.copy_into data size offset).getD []).length =
      (offset + size + PAGE_SIZE - 1) / PAGE_SIZE * PAGE_SIZE ∧
    (∀ i, i < offset →
      ((Pages.copy_into data size offset).getD [])[i]? = some 0) ∧
    (∀ i, i < min size data.length →
      ((Pages.copy_into data size offset).getD [])[offset + i]? = data[i]?) ∧
    (∀ i, offset + min size data.length ≤ i →
      i < ((Pages.copy_into data size offset).getD []).length →
      ((Pages.copy_into data size offset).getD [])[i]? = some 0) := by
  have hk := copy_into_take_length data size
  have hb := copy_into_bound data size offset
  rw [copy_into_eq_of_no_overflow data size offset hno]
  simp only [Option.isSome_some, Option.getD_some]
  refine ⟨trivial, ?_, ?_, ?_, ?_⟩
  · simp only [List.length_append, List.length_replicate, hk]
    omega
  · intro i hi
    rw [List.getElem?_append_left (by simp [hk]; omega),
      List.getElem?_append_left (by simpa using hi)]
    exact List.getElem?_replicate_of_lt hi
  · intro i hi
    rw [List.getElem?_append_left (by simp [hk]; omega),
      List.getElem?_append_right (by simp)]
    simp only [List.length_replicate, Nat.add_sub_cancel_left]
    exact List.getElem?_take_of_lt hi
  · intro i hlo hhi
    rw [List.getElem?_append_right (by simp [hk]; omega)]
    refine List.getElem?_replicate_of_lt ?_
    simp only [List.length_append, List.length_replicate, hk] at hhi ⊢
    omega

theorem Pages.copy_into_spec_witness :
    (Pages.copy_into [1, 2, 3] 5 2).isSome = true ∧
    ((Pages.copy_into [1, 2, 3] 5 2).getD []).length = 4096 ∧
    ((Pages.copy_into [1, 2, 3] 5 2).getD [])[1]? = some 0 ∧
    ((Pages.copy_into [1, 2, 3] 5 2).getD [])[2]? = some 1 ∧
    ((Pages.copy_into [1, 2, 3] 5 2).getD [])[4]? = some 3 ∧
    ((Pages.copy_into [1, 2, 3] 5 2).getD [])[5]? = some 0 := by
  have h := Pages.copy_into_spec [1, 2, 3] 5 2 (by norm_num [PAGE_SIZE])
  refine ⟨h.1, by rw [h.2.1]; decide, h.2.2.1 1 (by decide), ?_, ?_, ?_⟩
  · have := h.2.2.2.1 0 (by decide)
    simpa using this
  · have := h.2.2.2.1 2 (by decide)
    simpa using this
  · refine h.2.2.2.2 5 (by decide) ?_
    rw [h.2.1]
    decide

/-- C2 counterexample: at `data = []`, `size = usize::MAX = 2^64 - 1`,
`offset = 0`, the count computation wraps (`0 + (2^64 - 1) + 4096 - 1` is
`4094` modulo `2^64`), so `copy_into` returns an empty buffer, not one of
`ceil((offset + size) / PAGE_SIZE) * PAGE_SIZE` bytes as the claim states
for every `usize` pair. -/
theorem Pages.copy_into_overflow_cex :
    Pages.copy_into [] (2 ^ 64 - 1) 0 = some [] ∧
    ([] : List Nat).length ≠ (0 + (2 ^ 64 - 1) + PAGE_SIZE - 1) / PAGE_SIZE * PAGE_SIZE := by
  constructor
  · decide
  · decide
